import Mathlib

/-!
Verification of the Identity Resolution + Composite Scoring pipeline of
ds_product_analyzer against its specification.

The Python modules under src/ds_product_analyzer/pipeline are shallowly
embedded below: strings become List Char, floats become ℚ, SQL rows become
Lean structures and lists, and the stateful session becomes explicit state
passing.  Each definition carries a doc comment naming the Python function
it embeds.
-/

unseal Rat.add Rat.sub Rat.mul Rat.inv Rat.ofScientific

namespace DSPA

/-! ## Normalizer (normalizer.py, lines 3-18)

Strings are embedded as character lists.  The character classes of the
Python regular expressions are modelled on ASCII. -/

/-- ASCII model of the whitespace class of Python regular expressions and
of str.strip / str.split with no argument. -/
def isPySpace (c : Char) : Bool :=
  c = ' ' || c = '\t' || c = '\n' || c = '\r' || c = '\x0b' || c = '\x0c'

/-- ASCII model of the word-character class of Python regular
expressions. -/
def isPyWord (c : Char) : Bool :=
  c.isAlphanum || c = '_'

/-- Characters kept by the noise-stripping substitution of
normalize_product_name (normalizer.py, line 10): word characters,
whitespace and hyphens. -/
def keepChar (c : Char) : Bool :=
  isPyWord c || isPySpace c || c = '-'

/-- Model of str.strip: drop leading and trailing whitespace. -/
def pyStrip (l : List Char) : List Char :=
  ((l.dropWhile isPySpace).reverse.dropWhile isPySpace).reverse

/-- Model of the whitespace-collapsing substitution (normalizer.py,
line 12): every maximal whitespace run becomes one space. -/
def collapseWS : List Char → List Char
  | [] => []
  | [c] => if isPySpace c then [' '] else [c]
  | c :: d :: rest =>
    if isPySpace c && isPySpace d then collapseWS (d :: rest)
    else (if isPySpace c then ' ' else c) :: collapseWS (d :: rest)

/-- Model of the leading-article removal (normalizer.py, line 14): the
regular expression removes one leading article together with the
whitespace run after it; with no trailing whitespace the article stays. -/
def stripLeadingArticle (l : List Char) : List Char :=
  match l with
  | 't' :: 'h' :: 'e' :: c :: rest =>
    if isPySpace c then (c :: rest).dropWhile isPySpace else l
  | 'a' :: 'n' :: c :: rest =>
    if isPySpace c then (c :: rest).dropWhile isPySpace else l
  | 'a' :: c :: rest =>
    if isPySpace c then (c :: rest).dropWhile isPySpace else l
  | _ => l

/-- Model of str.split with no separator (normalizer.py, line 16): split
on whitespace runs, discarding empty pieces. -/
def splitWS : List Char → List (List Char)
  | [] => []
  | c :: rest =>
    if isPySpace c then splitWS rest
    else
      match rest with
      | [] => [[c]]
      | d :: _ =>
        if isPySpace d then [c] :: splitWS rest
        else
          match splitWS rest with
          | [] => [[c]]
          | t :: ts => (c :: t) :: ts

/-- The platform stopword set _PLATFORM_STOPWORDS (normalizer.py,
line 3). -/
def platformStopwords : List (List Char) :=
  [("amazon".toList), ("walmart".toList), ("ebay".toList), ("tiktok".toList),
    ("reddit".toList), ("aliexpress".toList), ("etsy".toList)]

/-- Model of the space join of the surviving tokens (normalizer.py,
line 17). -/
def joinTokens : List (List Char) → List Char
  | [] => []
  | [t] => t
  | t :: ts => t ++ ' ' :: joinTokens ts

/-- The token stage of normalize_product_name (normalizer.py, lines
8-16): lowercase and strip, drop the characters outside
word/whitespace/hyphen, collapse whitespace, remove one leading article,
split and drop platform stopword tokens. -/
def normalizeTokens (l : List Char) : List (List Char) :=
  (splitWS (stripLeadingArticle (collapseWS
    ((pyStrip (l.map Char.toLower)).filter keepChar)))).filter
    (fun t => !platformStopwords.contains t)

/-- Embedding of normalize_product_name (normalizer.py, lines 6-18): the
surviving tokens rejoined with single spaces and stripped. -/
def normalize_product_name (l : List Char) : List Char :=
  pyStrip (joinTokens (normalizeTokens l))

/-- The invariant of the token lists produced inside
normalize_product_name: every token is non-empty and consists of
non-whitespace kept characters fixed by lowercasing. -/
def GoodTokens (ts : List (List Char)) : Prop :=
  ∀ t ∈ ts, t ≠ [] ∧ ∀ c ∈ t,
    isPySpace c = false ∧ keepChar c = true ∧ Char.toLower c = c

/-! ## Identity resolver (dedup.py) -/

/-- MATCH_THRESHOLD from dedup.py (line 13). -/
def MATCH_THRESHOLD : ℕ := 80

/-- A row of the products table as read by find_or_create_product
(db/models.py). -/
structure ProductE where
  id : ℕ
  canonical_name : List Char
  category : Option (List Char)
deriving DecidableEq

/-- A row of the product_aliases table (db/models.py). -/
structure AliasE where
  product_id : ℕ
  alias_name : List Char
  source : List Char
deriving DecidableEq

/-- The store state visible to find_or_create_product: the product and
alias tables in iteration order, plus the next product id the database
would assign on flush. -/
structure Store where
  products : List ProductE
  aliases : List AliasE
  next_id : ℕ
deriving DecidableEq

/-- Embedding of _get_aliases (dedup.py, lines 74-76). -/
def get_aliases (st : Store) (pid : ℕ) : List AliasE :=
  st.aliases.filter (fun a => a.product_id == pid)

/-- The inner alias loop of the fuzzy scan (dedup.py, lines 49-53): the
running best is replaced only on a strictly greater score. -/
def scan_aliases (ratio : List Char → List Char → ℕ) (normalized : List Char)
    (p : ProductE) (as : List AliasE) (best : Option ProductE × ℕ) :
    Option ProductE × ℕ :=
  as.foldl
    (fun b a =>
      if b.2 < ratio normalized a.alias_name
        then (some p, ratio normalized a.alias_name) else b)
    best

/-- The fuzzy scan over all products and their aliases (dedup.py, lines
38-53), with the token-sort similarity ratio of the external fuzzy string
library abstracted as the function argument. -/
def fuzzy_scan (ratio : List Char → List Char → ℕ) (normalized : List Char)
    (st : Store) : Option ProductE × ℕ :=
  st.products.foldl
    (fun best p =>
      scan_aliases ratio normalized p (get_aliases st p.id)
        (if best.2 < ratio normalized p.canonical_name
          then (some p, ratio normalized p.canonical_name) else best))
    (none, 0)

/-- The creation branch of find_or_create_product (dedup.py, lines
65-71): a fresh product carrying the normalized name, registered together
with its own first source-tagged alias. -/
def create_new_product (st : Store) (normalized source : List Char)
    (category : Option (List Char)) : ProductE × Store :=
  let p : ProductE := ⟨st.next_id, normalized, category⟩
  (p, { products := st.products ++ [p],
        aliases := st.aliases ++ [⟨p.id, normalized, source⟩],
        next_id := st.next_id + 1 })

/-- Embedding of find_or_create_product (dedup.py, lines 16-71):
normalization, exact canonical match, exact alias match, fuzzy match with
alias registration at or above the threshold, and creation of a fresh
product otherwise.  The exact-alias branch yields none when the alias
table references a missing product id (there the Python code would return
None in violation of its return annotation). -/
def find_or_create_product (ratio : List Char → List Char → ℕ) (st : Store)
    (raw_name source : List Char) (category : Option (List Char)) :
    Option (ProductE × Store) :=
  let normalized := normalize_product_name raw_name
  match st.products.find? (fun p => p.canonical_name == normalized) with
  | some p => some (p, st)
  | none =>
    match st.aliases.find? (fun a => a.alias_name == normalized) with
    | some a =>
      (st.products.find? (fun p => p.id == a.product_id)).map (fun p => (p, st))
    | none =>
      match fuzzy_scan ratio normalized st with
      | (some p, best_score) =>
        if MATCH_THRESHOLD ≤ best_score then
          some (p, { st with
            aliases := st.aliases ++ [⟨p.id, normalized, source⟩] })
        else
          some (create_new_product st normalized source category)
      | (none, _) => some (create_new_product st normalized source category)

/-- The fuzzy-scan candidates in scan order: for each product its
canonical name and then its aliases, each paired with the owning
product. -/
def scan_candidates (st : Store) : List (ProductE × List Char) :=
  st.products.flatMap
    (fun p =>
      (p, p.canonical_name) :: (get_aliases st p.id).map (fun a => (p, a.alias_name)))

/-- One comparison step of the fuzzy scan on a single candidate: the
running best is replaced exactly when the candidate scores strictly
higher. -/
def scan_step (ratio : List Char → List Char → ℕ) (n : List Char)
    (b : Option ProductE × ℕ) (c : ProductE × List Char) :
    Option ProductE × ℕ :=
  if b.2 < ratio n c.2 then (some c.1, ratio n c.2) else b

/-! ## Composite scoring weights (trend_scorer.py, lines 15-28) -/

/-- Weight constant W_SEARCH_ACCEL from trend_scorer.py. -/
def W_SEARCH_ACCEL : ℚ := 0.25

/-- Weight constant W_SOCIAL_VELOCITY from trend_scorer.py. -/
def W_SOCIAL_VELOCITY : ℚ := 0.18

/-- Weight constant W_RETAIL_MOMENTUM from trend_scorer.py. -/
def W_RETAIL_MOMENTUM : ℚ := 0.12

/-- Weight constant W_PRICE_FIT from trend_scorer.py. -/
def W_PRICE_FIT : ℚ := 0.10

/-- Weight constant W_SENTIMENT from trend_scorer.py. -/
def W_SENTIMENT : ℚ := 0.10

/-- Weight constant W_TREND_SHAPE from trend_scorer.py. -/
def W_TREND_SHAPE : ℚ := 0.08

/-- Weight constant W_PLATFORM_COUNT from trend_scorer.py. -/
def W_PLATFORM_COUNT : ℚ := 0.07

/-- Weight constant W_PURCHASE_INTENT from trend_scorer.py. -/
def W_PURCHASE_INTENT : ℚ := 0.05

/-- Weight constant W_RECENCY from trend_scorer.py. -/
def W_RECENCY : ℚ := 0.05

/-- The weighted combination computed in score_product (trend_scorer.py,
lines 326-338) before the final two-decimal rounding of the stored
snapshot: the nine component scores enter a fixed-weight linear
combination clamped above at 100. -/
def composite_score (search_accel social_velocity retail_momentum price_fit
    sentiment trend_shape platform_norm purchase_intent recency : ℚ) : ℚ :=
  min
    (W_SEARCH_ACCEL * search_accel
      + W_SOCIAL_VELOCITY * social_velocity
      + W_RETAIL_MOMENTUM * retail_momentum
      + W_PRICE_FIT * price_fit
      + W_SENTIMENT * sentiment
      + W_TREND_SHAPE * trend_shape
      + W_PLATFORM_COUNT * platform_norm
      + W_PURCHASE_INTENT * purchase_intent
      + W_RECENCY * recency)
    100

/-! ## Price fit (trend_scorer.py, _compute_price_fit, lines 147-180) -/

/-- The price fields of the Product model (db/models.py): running minimum
and maximum observed price, each nullable. -/
structure ProductPrice where
  price_low : Option ℚ
  price_high : Option ℚ
deriving DecidableEq

/-- The piecewise-linear desirability curve applied to the selected price
in _compute_price_fit (trend_scorer.py, lines 163-180), written as a
standalone function of the price for comparison with the full scorer. -/
def priceCurve (price : ℚ) : ℚ :=
  if 20 ≤ price ∧ price ≤ 60 then 100
  else if 10 ≤ price ∧ price < 20 then 50 + (price - 10) / 10 * 50
  else if 60 < price ∧ price ≤ 80 then 100 - (price - 60) / 20 * 50
  else if 0 ≤ price ∧ price < 10 then price / 10 * 50
  else if 80 < price ∧ price ≤ 150 then max (50 - (price - 80) / 70 * 50) 0
  else 0

/-- Embedding of _compute_price_fit (trend_scorer.py, lines 147-180):
neutral 50 when both bounds are unset, otherwise the midpoint when both
are set or the single known bound, fed through the inline piecewise
desirability chain. -/
def compute_price_fit (p : ProductPrice) : ℚ :=
  if p.price_low = none ∧ p.price_high = none then 50
  else
    let price : ℚ :=
      match p.price_low, p.price_high with
      | some l, some h => (l + h) / 2
      | some l, none => l
      | none, some h => h
      | none, none => 0
    if 20 ≤ price ∧ price ≤ 60 then 100
    else if 10 ≤ price ∧ price < 20 then 50 + (price - 10) / 10 * 50
    else if 60 < price ∧ price ≤ 80 then 100 - (price - 60) / 20 * 50
    else if 0 ≤ price ∧ price < 10 then price / 10 * 50
    else if 80 < price ∧ price ≤ 150 then max (50 - (price - 80) / 70 * 50) 0
    else 0

/-! ## Price bound updates (runner.py, _write_price_for_product, lines 231-238) -/

/-- Embedding of the price_low / price_high updates performed by
_write_price_for_product (runner.py, lines 235-238) for one
price-carrying signal: each bound is replaced only when unset or when the
new price lies outside it. -/
def update_price_bounds (low high : Option ℚ) (price : ℚ) : Option ℚ × Option ℚ :=
  let low2 : Option ℚ :=
    match low with
    | none => some price
    | some l => if price < l then some price else some l
  let high2 : Option ℚ :=
    match high with
    | none => some price
    | some h => if h < price then some price else some h
  (low2, high2)

/-! ## Trend shape (trend_scorer.py, _compute_trend_shape, lines 183-219) -/

/-- The consecutive deltas of a chronological score history, as computed
by the list comprehension in _compute_trend_shape (line 200). -/
def trend_deltas (scores : List ℚ) : List ℚ :=
  List.zipWith (fun a b => b - a) scores scores.tail

/-- The spike-then-drop scan of _compute_trend_shape (lines 204-206): some
delta above 15 immediately followed by a delta below -10. -/
def has_fad_pattern : List ℚ → Bool
  | a :: b :: rest => (decide (15 < a) && decide (b < -10)) || has_fad_pattern (b :: rest)
  | _ => false

/-- Embedding of _compute_trend_shape (trend_scorer.py, lines 183-219) on
the chronological list of up to 10 most recent composite scores that the
function reads back from the TrendScore table. -/
def compute_trend_shape (scores : List ℚ) : ℚ :=
  if scores.length < 3 then 50
  else
    let deltas := trend_deltas scores
    let avg_delta := deltas.sum / (deltas.length : ℚ)
    if has_fad_pattern deltas then 15
    else if avg_delta < -2 then max (30 + (avg_delta + 2) / 18 * 30) 0
    else if 0 < avg_delta ∧ deltas.all (fun d => decide (d ≤ 20)) then
      min (70 + avg_delta / 10 * 30) 100
    else 50

/-! ## Recommendation cache (recommender.py, lines 29-31 and 170-185) -/

/-- The cache TTL constant of recommender.py (line 29): 4 hours in
seconds. -/
def CACHE_TTL : ℚ := 4 * 3600

/-- Embedding of generate_dropshipping_recommendations (recommender.py,
lines 170-185) with the module-level _cache dictionary and the monotonic
clock made explicit: st is the cache (keyed by top_n, holding a store
timestamp and the stored list), now is the current monotonic time, and
build abstracts _build_recommendations together with the external
reasoning service it invokes.  Returns the recommendation list, the
updated cache, and whether a fresh computation occurred. -/
def generate_recommendations {α : Type} (build : ℕ → List α)
    (st : ℕ → Option (ℚ × List α)) (now : ℚ) (topN : ℕ) :
    List α × (ℕ → Option (ℚ × List α)) × Bool :=
  match st topN with
  | some (ts, recs) =>
    if now - ts < CACHE_TTL then (recs, st, false)
    else
      let recs2 := build topN
      (recs2, fun k => if k = topN then some (now, recs2) else st k, true)
  | none =>
    let recs2 := build topN
    (recs2, fun k => if k = topN then some (now, recs2) else st k, true)

/-! ## Reasoning-service fallback (recommender.py, lines 106-162 and 291-314) -/

/-- One strengths entry of an analysis: free text from the reasoning
service, or one of the three template strengths of _fallback_analysis
with the interpolated value (the Python code renders these as formatted
strings; the formatting is abstracted to the formatted value). -/
inductive StrengthItem where
  | text (s : List Char)
  | trendShapeScore (v : ℚ)
  | priceFitScore (v : ℚ)
  | platformPresence (n : ℕ)
deriving DecidableEq

/-- A structured per-product analysis, as parsed from the reasoning
service response or produced by _fallback_analysis (recommender.py). -/
structure AnalysisE where
  name : List Char
  verdict : List Char
  strengths : List StrengthItem
  risks : List (List Char)
  strategy : List Char
  target_channel : List Char
deriving DecidableEq

/-- The fields of one products_data entry (recommender.py, lines 271-289)
that _fallback_analysis reads. -/
structure CandidateData where
  name : List Char
  ds_score : ℚ
  trend_shape : ℚ
  price_fit : ℚ
  platform_count : ℕ
deriving DecidableEq

/-- Embedding of _fallback_analysis (recommender.py, lines 138-162):
deterministic template analysis with the verdict thresholds on the DS
suitability score. -/
def fallback_analysis (p : CandidateData) : AnalysisE where
  name := p.name
  verdict :=
    if 60 ≤ p.ds_score then ("Strong".toList)
    else if 40 ≤ p.ds_score then ("Moderate".toList)
    else ("Speculative".toList)
  strengths :=
    [.trendShapeScore p.trend_shape, .priceFitScore p.price_fit,
      .platformPresence p.platform_count]
  risks :=
    [("Analysis unavailable (no API key configured)".toList),
      ("Verify margin before sourcing".toList)]
  strategy :=
    ("Research suppliers and validate margins before launching ad campaigns.".toList)
  target_channel :=
    if 3 ≤ p.platform_count then ("TikTok Ads".toList)
    else ("Google Shopping".toList)

/-- Embedding of the response validation in _call_claude (recommender.py,
lines 128-135): a parsed response is kept only when it is a list of
exactly the submitted batch length; an exception, a non-list response or
a length mismatch all yield None. -/
def validate_reasoning_response (n : ℕ) (resp : Option (List AnalysisE)) :
    Option (List AnalysisE) :=
  match resp with
  | some l => if l.length = n then some l else none
  | none => none

/-- Embedding of the per-candidate analysis selection of
_build_recommendations step 10 (recommender.py, lines 295-314): candidate
i uses the service result when it is available and long enough, else the
template analysis. -/
def analyses_from (res : Option (List AnalysisE)) :
    ℕ → List CandidateData → List AnalysisE
  | _, [] => []
  | i, c :: rest =>
    (match res with
      | some l => if h : i < l.length then l.get ⟨i, h⟩ else fallback_analysis c
      | none => fallback_analysis c) :: analyses_from res (i + 1) rest

/-! ## Candidate selection (recommender.py, lines 57-65 and 188-243) -/

/-- The component scores of one TrendScore snapshot read by the
recommendation engine (db/models.py; recommender.py). -/
structure TrendScoreE where
  score : ℚ
  trend_shape : ℚ
  price_fit : ℚ
  sentiment : ℚ
  social_velocity : ℚ
  platform_count : ℕ
deriving DecidableEq

/-- Embedding of _compute_ds_score (recommender.py, lines 57-65): the
DS-specific suitability composite. -/
def compute_ds_score (ts : TrendScoreE) : ℚ :=
  0.30 * ts.trend_shape + 0.25 * ts.price_fit + 0.20 * ts.sentiment
    + 0.15 * ts.social_velocity + 0.10 * ((ts.platform_count : ℚ) / 7 * 100)

/-- Step 2 of _build_recommendations (recommender.py, lines 214-217): DS
scoring of every (product, latest TrendScore) pair. -/
def ds_scored {π : Type} (all : List (π × TrendScoreE)) :
    List (π × TrendScoreE × ℚ) :=
  all.map (fun pt => (pt.1, pt.2, compute_ds_score pt.2))

/-- Step 3 of _build_recommendations (recommender.py, lines 220-223): the
strict fad-excluding filter, composite score at least 30 and trend-shape
above 15. -/
def strict_filtered {π : Type} (scored : List (π × TrendScoreE × ℚ)) :
    List (π × TrendScoreE × ℚ) :=
  scored.filter
    (fun x => decide (30 ≤ x.2.1.score) && decide (15 < x.2.1.trend_shape))

/-- Step 4 of _build_recommendations (recommender.py, lines 231-234): the
relaxed filter, composite score at least 20 with trend-shape ignored. -/
def relaxed_filtered {π : Type} (scored : List (π × TrendScoreE × ℚ)) :
    List (π × TrendScoreE × ℚ) :=
  scored.filter (fun x => decide (20 ≤ x.2.1.score))

/-- Embedding of selection steps 1-5 of _build_recommendations
(recommender.py, lines 208-243): strict filter, relaxation to the
score-at-least-20 filter when fewer than top_n survive, stable descending
sort by DS score, truncation to top_n, and the last-resort
top-n-by-raw-score fallback when the truncated list came out empty. -/
def build_top {π : Type} (topN : ℕ) (all : List (π × TrendScoreE)) :
    List (π × TrendScoreE × ℚ) :=
  if all.isEmpty then []
  else if (((if (strict_filtered (ds_scored all)).length < topN
              then relaxed_filtered (ds_scored all)
              else strict_filtered (ds_scored all)).mergeSort
              (fun a b => decide (b.2.2 ≤ a.2.2))).take topN).isEmpty then
    ((ds_scored all).mergeSort
      (fun a b => decide (b.2.1.score ≤ a.2.1.score))).take topN
  else
    ((if (strict_filtered (ds_scored all)).length < topN
        then relaxed_filtered (ds_scored all)
        else strict_filtered (ds_scored all)).mergeSort
        (fun a b => decide (b.2.2 ≤ a.2.2))).take topN

/-! ## Theorems for claims C2, C7, C8, C9, C10 -/

/-- Helper: an indexed spike-then-drop pair makes the scan of
has_fad_pattern succeed. -/
theorem fad_of_getD (l : List ℚ) (i : ℕ) (hi : i + 1 < l.length)
    (h1 : 15 < l.getD i 0) (h2 : l.getD (i + 1) 0 < -10) :
    has_fad_pattern l = true := by
  induction l generalizing i with
  | nil => simp at hi
  | cons a rest ih =>
    cases rest with
    | nil => simp at hi
    | cons b rest2 =>
      cases i with
      | zero =>
        simp only [List.getD_cons_zero, List.getD_cons_succ] at h1 h2
        simp [has_fad_pattern, h1, h2]
      | succ j =>
        have hrec : has_fad_pattern (b :: rest2) = true := by
          refine ih j ?_ ?_ ?_
          · simpa using hi
          · simpa using h1
          · simpa using h2
        simp [has_fad_pattern, hrec]

/-- C2: for every chronological composite-score history of at least 3
points, a consecutive delta above 15 immediately followed by a delta
below -10 makes the trend-shape scorer return exactly 15, regardless of
magnitudes. -/
theorem trend_shape_fad_returns_15 (scores : List ℚ) (i : ℕ)
    (hlen : 3 ≤ scores.length)
    (hi : i + 1 < (trend_deltas scores).length)
    (h1 : 15 < (trend_deltas scores).getD i 0)
    (h2 : (trend_deltas scores).getD (i + 1) 0 < -10) :
    compute_trend_shape scores = 15 := by
  have hfad : has_fad_pattern (trend_deltas scores) = true :=
    fad_of_getD _ i hi h1 h2
  unfold compute_trend_shape
  rw [if_neg (by omega)]
  simp only [hfad, if_true]

/-- Witness for C2: the history [20, 40, 15] (delta +20 then -25) scores
exactly 15. -/
theorem trend_shape_fad_returns_15_witness :
    3 ≤ ([20, 40, 15] : List ℚ).length
    ∧ 0 + 1 < (trend_deltas ([20, 40, 15] : List ℚ)).length
    ∧ 15 < (trend_deltas ([20, 40, 15] : List ℚ)).getD 0 0
    ∧ (trend_deltas ([20, 40, 15] : List ℚ)).getD (0 + 1) 0 < -10
    ∧ compute_trend_shape [20, 40, 15] = 15 :=
  ⟨by decide, by decide, by decide, by decide,
    trend_shape_fad_returns_15 [20, 40, 15] 0 (by decide) (by decide)
      (by decide) (by decide)⟩

/-- C7: price-fit boundary values: any product whose midpoint price is 40
scores 100, midpoint 0 scores 0, midpoint 200 scores 0, and a product
with no price data at all scores the neutral 50. -/
theorem price_fit_boundary_values :
    (∀ l h : ℚ, (l + h) / 2 = 40 → compute_price_fit ⟨some l, some h⟩ = 100)
    ∧ (∀ l h : ℚ, (l + h) / 2 = 0 → compute_price_fit ⟨some l, some h⟩ = 0)
    ∧ (∀ l h : ℚ, (l + h) / 2 = 200 → compute_price_fit ⟨some l, some h⟩ = 0)
    ∧ compute_price_fit ⟨none, none⟩ = 50 := by
  refine ⟨?_, ?_, ?_, by decide⟩ <;> intro l h hm <;>
    · have e : compute_price_fit ⟨some l, some h⟩ = priceCurve ((l + h) / 2) := rfl
      rw [e, hm]
      decide

/-- Witness for C7: concrete products realizing midpoints 40, 0 and 200. -/
theorem price_fit_boundary_values_witness :
    (((40 : ℚ) + 40) / 2 = 40 ∧ compute_price_fit ⟨some 40, some 40⟩ = 100)
    ∧ (((0 : ℚ) + 0) / 2 = 0 ∧ compute_price_fit ⟨some 0, some 0⟩ = 0)
    ∧ (((200 : ℚ) + 200) / 2 = 200 ∧ compute_price_fit ⟨some 200, some 200⟩ = 0) :=
  ⟨⟨by decide, price_fit_boundary_values.1 40 40 (by decide)⟩,
    ⟨by decide, price_fit_boundary_values.2.1 0 0 (by decide)⟩,
    ⟨by decide, price_fit_boundary_values.2.2.1 200 200 (by decide)⟩⟩

/-- C8: the nine fixed composite weights used by score_product sum to
exactly 1. -/
theorem composite_weights_sum_to_one :
    W_SEARCH_ACCEL + W_SOCIAL_VELOCITY + W_RETAIL_MOMENTUM + W_PRICE_FIT
      + W_SENTIMENT + W_TREND_SHAPE + W_PLATFORM_COUNT + W_PURCHASE_INTENT
      + W_RECENCY = 1 := by decide

/-- Helper: the strict-compare-then-replace update of the low bound is
the minimum. -/
theorem if_lt_eq_min (l price : ℚ) : (if price < l then price else l) = min l price := by
  rcases le_or_lt l price with hle | hlt
  · rw [if_neg (not_lt.mpr hle), min_eq_left hle]
  · rw [if_pos hlt, min_eq_right hlt.le]

/-- Helper: the strict-compare-then-replace update of the high bound is
the maximum. -/
theorem if_gt_eq_max (h price : ℚ) : (if h < price then price else h) = max h price := by
  rcases le_or_lt price h with hle | hlt
  · rw [if_neg (not_lt.mpr hle), max_eq_left hle]
  · rw [if_pos hlt, max_eq_right hlt.le]

/-- C9: a price-carrying update only widens price bounds: the new low is
the minimum of the old low and the price (the price itself when the low
was unset), and the new high is symmetrically the maximum. -/
theorem price_bounds_only_widen (low high : Option ℚ) (price : ℚ) :
    update_price_bounds low high price
      = (some ((low.map (fun l => min l price)).getD price),
         some ((high.map (fun h => max h price)).getD price)) := by
  cases low with
  | none =>
    cases high with
    | none => rfl
    | some b =>
      show (some price, if b < price then some price else some b)
          = (some price, some (max b price))
      rw [(apply_ite some (b < price) price b).symm, if_gt_eq_max b price]
  | some a =>
    cases high with
    | none =>
      show (if price < a then some price else some a, some price)
          = (some (min a price), some price)
      rw [(apply_ite some (price < a) price a).symm, if_lt_eq_min a price]
    | some b =>
      show (if price < a then some price else some a,
            if b < price then some price else some b)
          = (some (min a price), some (max b price))
      rw [(apply_ite some (price < a) price a).symm, if_lt_eq_min a price,
        (apply_ite some (b < price) price b).symm, if_gt_eq_max b price]

/-- C10: with exactly one price bound known the scorer evaluates the
desirability curve at that bound (not the neutral 50, not a midpoint with
an implicit 0); with both bounds known it evaluates the curve at their
midpoint. -/
theorem price_fit_single_bound_uses_curve :
    (∀ v : ℚ, compute_price_fit ⟨some v, none⟩ = priceCurve v)
    ∧ (∀ v : ℚ, compute_price_fit ⟨none, some v⟩ = priceCurve v)
    ∧ (∀ l h : ℚ, compute_price_fit ⟨some l, some h⟩ = priceCurve ((l + h) / 2))
    ∧ compute_price_fit ⟨some 100, none⟩ = 250 / 7 :=
  ⟨fun _ => rfl, fun _ => rfl, fun _ _ => rfl, by decide⟩

/-- Helper: after a call that stored (t1, build topN) under topN, a later
call at time t2 hits the cache exactly when t2 - t1 is below the TTL, and
otherwise recomputes and replaces the entry. -/
theorem generate_recommendations_after_store {α : Type} (build : ℕ → List α)
    (st1 : ℕ → Option (ℚ × List α)) (t1 t2 : ℚ) (topN : ℕ)
    (h2 : st1 topN = some (t1, build topN)) :
    (t2 - t1 < CACHE_TTL →
      generate_recommendations build st1 t2 topN = (build topN, st1, false))
    ∧ (CACHE_TTL ≤ t2 - t1 →
      (generate_recommendations build st1 t2 topN).2.2 = true
      ∧ (generate_recommendations build st1 t2 topN).1 = build topN
      ∧ (generate_recommendations build st1 t2 topN).2.1 topN
          = some (t2, build topN)) := by
  constructor
  · intro hlt
    simp only [generate_recommendations, h2]
    rw [if_pos hlt]
  · intro hge
    simp only [generate_recommendations, h2]
    rw [if_neg (not_lt.mpr hge)]
    refine ⟨rfl, rfl, ?_⟩
    simp

/-- C4: after a call to the recommendation engine that performed a fresh
computation for a given top_n, a second call with the same top_n within
the 4-hour TTL on the monotonic clock returns the previously cached list
unchanged without recomputing (so without re-invoking the reasoning
service), and a second call at or past the TTL performs a fresh
computation and replaces the cache entry. -/
theorem recommendation_cache_ttl {α : Type} (build : ℕ → List α)
    (st : ℕ → Option (ℚ × List α)) (t1 t2 : ℚ) (topN : ℕ)
    (hfresh : (generate_recommendations build st t1 topN).2.2 = true)
    (_hmono : t1 ≤ t2) :
    (t2 - t1 < CACHE_TTL →
      generate_recommendations build
          (generate_recommendations build st t1 topN).2.1 t2 topN
        = ((generate_recommendations build st t1 topN).1,
            (generate_recommendations build st t1 topN).2.1, false))
    ∧ (CACHE_TTL ≤ t2 - t1 →
      (generate_recommendations build
          (generate_recommendations build st t1 topN).2.1 t2 topN).2.2 = true
      ∧ (generate_recommendations build
          (generate_recommendations build st t1 topN).2.1 t2 topN).1 = build topN
      ∧ (generate_recommendations build
          (generate_recommendations build st t1 topN).2.1 t2 topN).2.1 topN
          = some (t2, build topN)) := by
  have hout : (generate_recommendations build st t1 topN).1 = build topN
      ∧ (generate_recommendations build st t1 topN).2.1 topN
          = some (t1, build topN) := by
    cases h0 : st topN with
    | none =>
      constructor
      · simp [generate_recommendations, h0]
      · simp [generate_recommendations, h0]
    | some pr =>
      obtain ⟨ts, recs⟩ := pr
      by_cases hc : t1 - ts < CACHE_TTL
      · exfalso
        simp [generate_recommendations, h0, hc] at hfresh
      · constructor
        · simp [generate_recommendations, h0, hc]
        · simp [generate_recommendations, h0, hc]
  have hres := generate_recommendations_after_store build
    (generate_recommendations build st t1 topN).2.1 t1 t2 topN hout.2
  refine ⟨fun hlt => ?_, hres.2⟩
  rw [hres.1 hlt, hout.1]

/-- Witness for C4: starting from an empty cache, a first call at time 0
computes and a second call at time 100 hits the cache. -/
theorem recommendation_cache_ttl_witness :
    ((generate_recommendations (fun _ => [1]) (fun _ => none) 0 5).2.2 = true)
    ∧ ((0 : ℚ) ≤ 100)
    ∧ ((100 : ℚ) - 0 < CACHE_TTL →
      generate_recommendations (fun _ => ([1] : List ℕ))
          (generate_recommendations (fun _ => [1]) (fun _ => none) 0 5).2.1 100 5
        = ((generate_recommendations (fun _ => [1]) (fun _ => none) 0 5).1,
            (generate_recommendations (fun _ => [1]) (fun _ => none) 0 5).2.1,
            false)) :=
  ⟨by decide, by decide,
    (recommendation_cache_ttl (fun _ => [1]) (fun _ => none) 0 100 5
      (by decide) (by decide)).1⟩

/-- Helper: with no usable reasoning response every candidate receives
the template analysis, at every enumeration offset. -/
theorem analyses_from_none (i : ℕ) (cands : List CandidateData) :
    analyses_from none i cands = cands.map fallback_analysis := by
  induction cands generalizing i with
  | nil => rfl
  | cons c rest ih => simp [analyses_from, ih]

/-- C6: when the reasoning service response is absent or has a length
different from the submitted batch, the deterministic template analysis
is substituted for every candidate of the batch, and the template verdict
follows the suitability thresholds (at least 60 Strong, at least 40
Moderate, otherwise Speculative). -/
theorem reasoning_len_mismatch_uses_template (cands : List CandidateData)
    (resp : Option (List AnalysisE))
    (hbad : match resp with
      | some l => l.length ≠ cands.length
      | none => True) :
    analyses_from (validate_reasoning_response cands.length resp) 0 cands
      = cands.map fallback_analysis
    ∧ ∀ c ∈ cands,
        (fallback_analysis c).verdict
          = if 60 ≤ c.ds_score then ("Strong".toList)
            else if 40 ≤ c.ds_score then ("Moderate".toList)
            else ("Speculative".toList) := by
  have hval : validate_reasoning_response cands.length resp = none := by
    cases resp with
    | none => rfl
    | some l => simp [validate_reasoning_response, hbad]
  rw [hval]
  exact ⟨analyses_from_none 0 cands, fun c _ => rfl⟩

/-- Witness for C6: a two-candidate batch against an empty (wrong-length)
service response is fully served by the template analysis. -/
theorem reasoning_len_mismatch_uses_template_witness :
    (match (some [] : Option (List AnalysisE)) with
      | some l =>
        l.length ≠ ([⟨("a".toList), 70, 50, 50, 3⟩,
          ⟨("b".toList), 45, 50, 50, 1⟩] : List CandidateData).length
      | none => True)
    ∧ (analyses_from
          (validate_reasoning_response
            ([⟨("a".toList), 70, 50, 50, 3⟩,
              ⟨("b".toList), 45, 50, 50, 1⟩] : List CandidateData).length
            (some []))
          0
          [⟨("a".toList), 70, 50, 50, 3⟩, ⟨("b".toList), 45, 50, 50, 1⟩]
        = ([⟨("a".toList), 70, 50, 50, 3⟩,
            ⟨("b".toList), 45, 50, 50, 1⟩] : List CandidateData).map
            fallback_analysis
      ∧ ∀ c ∈ ([⟨("a".toList), 70, 50, 50, 3⟩,
            ⟨("b".toList), 45, 50, 50, 1⟩] : List CandidateData),
          (fallback_analysis c).verdict
            = if 60 ≤ c.ds_score then ("Strong".toList)
              else if 40 ≤ c.ds_score then ("Moderate".toList)
              else ("Speculative".toList)) :=
  ⟨by decide,
    reasoning_len_mismatch_uses_template
      [⟨("a".toList), 70, 50, 50, 3⟩, ⟨("b".toList), 45, 50, 50, 1⟩]
      (some []) (by decide)⟩

/-- Helper: taking a positive prefix of a non-empty list is non-empty. -/
theorem take_ne_nil_of_pos {α : Type} {n : ℕ} {l : List α} (hn : 1 ≤ n)
    (hl : l ≠ []) : l.take n ≠ [] := by
  cases l with
  | nil => exact absurd rfl hl
  | cons a t =>
    cases n with
    | zero => omega
    | succ m => simp

/-- Helper: merge sort of a non-empty list is non-empty. -/
theorem mergeSort_ne_nil {α : Type} {le : α → α → Bool} {l : List α}
    (hl : l ≠ []) : l.mergeSort le ≠ [] := by
  intro h
  have hp := List.mergeSort_perm l le
  rw [h] at hp
  exact hl hp.symm.eq_nil

/-- Counterexample for C5 as stated: at top_n = 0 a product with a
TrendScore snapshot exists, yet the recommendation selection returns the
empty list, so the claim's unconditional non-emptiness (and its
zero-survivor fallback chain) does not cover top_n = 0. -/
theorem recommendation_nonempty_fails_at_topn_zero :
    build_top 0 [(((), (⟨50, 50, 50, 50, 50, 3⟩ : TrendScoreE)))] = [] := by
  simp [build_top]

/-- C5 (amended: for top_n at least 1): if zero products satisfy the
strict filter, the relaxed filter is used (when it is non-empty the
result is the sorted-and-truncated relaxed list); if the relaxed filter
also yields zero survivors, the top-n-by-raw-composite fallback is used;
and the result is non-empty whenever at least one product has a
TrendScore snapshot. -/
theorem recommendation_filter_fallbacks {π : Type} (topN : ℕ)
    (all : List (π × TrendScoreE)) (htop : 1 ≤ topN) :
    (strict_filtered (ds_scored all) = [] →
      ((relaxed_filtered (ds_scored all) ≠ [] →
        build_top topN all
          = ((relaxed_filtered (ds_scored all)).mergeSort
              (fun a b => decide (b.2.2 ≤ a.2.2))).take topN)
      ∧ (relaxed_filtered (ds_scored all) = [] →
        build_top topN all
          = ((ds_scored all).mergeSort
              (fun a b => decide (b.2.1.score ≤ a.2.1.score))).take topN)))
    ∧ (all ≠ [] → build_top topN all ≠ []) := by
  constructor
  · intro hstrict
    constructor
    · intro hrel
      have hallne : all ≠ [] := by
        intro h
        subst h
        exact hrel rfl
      have hne2 : ¬(all.isEmpty = true) := by
        simpa [List.isEmpty_iff] using hallne
      have hcond : (strict_filtered (ds_scored all)).length < topN := by
        rw [hstrict]
        simpa using htop
      have htopne : ((relaxed_filtered (ds_scored all)).mergeSort
          (fun a b => decide (b.2.2 ≤ a.2.2))).take topN ≠ [] :=
        take_ne_nil_of_pos htop (mergeSort_ne_nil hrel)
      have htopne2 : ¬((((relaxed_filtered (ds_scored all)).mergeSort
          (fun a b => decide (b.2.2 ≤ a.2.2))).take topN).isEmpty = true) := by
        simpa [List.isEmpty_iff] using htopne
      unfold build_top
      rw [if_neg hne2, if_pos hcond, if_neg htopne2]
    · intro hrel
      cases hall : all with
      | nil =>
        subst hall
        simp [build_top, ds_scored, List.mergeSort_nil]
      | cons a rest =>
        rw [← hall]
        have hne2 : ¬(all.isEmpty = true) := by
          rw [hall]
          simp

        have hcond : (strict_filtered (ds_scored all)).length < topN := by
          rw [hstrict]
          simpa using htop
        unfold build_top
        rw [if_neg hne2, if_pos hcond, hrel]
        simp
  · intro hallne
    have hne2 : ¬(all.isEmpty = true) := by
      simpa [List.isEmpty_iff] using hallne
    have hmapne : ds_scored all ≠ [] := by
      simpa [ds_scored] using hallne
    unfold build_top
    rw [if_neg hne2]
    by_cases hc : (((if (strict_filtered (ds_scored all)).length < topN
        then relaxed_filtered (ds_scored all)
        else strict_filtered (ds_scored all)).mergeSort
        (fun a b => decide (b.2.2 ≤ a.2.2))).take topN).isEmpty = true
    · rw [if_pos hc]
      exact take_ne_nil_of_pos htop (mergeSort_ne_nil hmapne)
    · rw [if_neg hc]
      exact fun h => hc (List.isEmpty_iff.mpr h)

/-- Witness for C5: one product below the strict filter but inside the
relaxed one, at top_n = 1, is selected through the relaxed branch. -/
theorem recommendation_filter_fallbacks_witness :
    (1 ≤ 1)
    ∧ strict_filtered (ds_scored [(((), (⟨25, 10, 50, 50, 50, 1⟩ : TrendScoreE)))]) = []
    ∧ relaxed_filtered (ds_scored [(((), (⟨25, 10, 50, 50, 50, 1⟩ : TrendScoreE)))]) ≠ []
    ∧ build_top 1 [(((), (⟨25, 10, 50, 50, 50, 1⟩ : TrendScoreE)))]
        = ((relaxed_filtered
            (ds_scored [(((), (⟨25, 10, 50, 50, 50, 1⟩ : TrendScoreE)))])).mergeSort
            (fun a b => decide (b.2.2 ≤ a.2.2))).take 1 :=
  ⟨by decide, by decide, by decide,
    ((recommendation_filter_fallbacks 1
        [(((), (⟨25, 10, 50, 50, 50, 1⟩ : TrendScoreE)))] (by decide)).1
      (by decide)).1 (by decide)⟩

/-! ## Lemmas for the normalizer (claim C1) -/

/-- Helper: packing a small scalar value into a character preserves its
code point. -/
theorem char_toNat_ofNat {n : ℕ} (h : n < 55296) : (Char.ofNat n).toNat = n := by
  rw [Char.ofNat, dif_pos (Or.inl h)]
  rfl

/-- Helper: ASCII lowercasing is idempotent. -/
theorem toLower_idem (c : Char) : (c.toLower).toLower = c.toLower := by
  by_cases h : 65 ≤ c.toNat ∧ c.toNat ≤ 90
  · have h1 : c.toLower = Char.ofNat (c.toNat + 32) := by
      simp only [Char.toLower]
      rw [if_pos h]
    have h2 : (Char.ofNat (c.toNat + 32)).toNat = c.toNat + 32 :=
      char_toNat_ofNat (by omega)
    rw [h1]
    simp only [Char.toLower]
    rw [if_neg (by rw [h2]; omega)]
  · have h1 : c.toLower = c := by
      simp only [Char.toLower]
      rw [if_neg h]
    rw [h1]
    exact h1

/-- Helper: characters of the stripped list come from the list. -/
theorem mem_pyStrip {c : Char} {l : List Char} (h : c ∈ pyStrip l) : c ∈ l := by
  unfold pyStrip at h
  rw [List.mem_reverse] at h
  have h2 := (List.dropWhile_sublist _).subset h
  rw [List.mem_reverse] at h2
  exact (List.dropWhile_sublist _).subset h2

/-- Helper: characters of the collapsed list are single spaces or
non-whitespace characters of the list. -/
theorem mem_collapseWS {c : Char} :
    ∀ {l : List Char}, c ∈ collapseWS l →
      c = ' ' ∨ (c ∈ l ∧ isPySpace c = false)
  | [], h => absurd h (by simp [collapseWS])
  | [d], h => by
    unfold collapseWS at h
    by_cases hs : isPySpace d = true
    · rw [if_pos hs] at h
      exact Or.inl (by simpa using h)
    · rw [if_neg hs] at h
      refine Or.inr ⟨by simpa using h, ?_⟩
      simp only [List.mem_singleton] at h
      subst h
      simpa using hs
  | d :: e :: rest, h => by
    unfold collapseWS at h
    by_cases hs : (isPySpace d && isPySpace e) = true
    · rw [if_pos hs] at h
      rcases mem_collapseWS h with h1 | ⟨h1, h2⟩
      · exact Or.inl h1
      · exact Or.inr ⟨List.mem_cons_of_mem d h1, h2⟩
    · rw [if_neg hs] at h
      rcases List.mem_cons.mp h with h1 | h1
      · by_cases hd : isPySpace d = true
        · rw [if_pos hd] at h1
          exact Or.inl h1
        · rw [if_neg hd] at h1
          subst h1
          exact Or.inr ⟨List.mem_cons_self _ _, by simpa using hd⟩
      · rcases mem_collapseWS h1 with h2 | ⟨h2, h3⟩
        · exact Or.inl h2
        · exact Or.inr ⟨List.mem_cons_of_mem d h2, h3⟩

/-- Helper: the article-removal step returns a suffix of its input. -/
theorem stripLeadingArticle_suffix (l : List Char) :
    stripLeadingArticle l <:+ l := by
  unfold stripLeadingArticle
  split
  · split
    · exact (List.dropWhile_suffix _).trans ⟨['t', 'h', 'e'], rfl⟩
    · exact List.suffix_refl _
  · split
    · exact (List.dropWhile_suffix _).trans ⟨['a', 'n'], rfl⟩
    · exact List.suffix_refl _
  · split
    · exact (List.dropWhile_suffix _).trans ⟨['a'], rfl⟩
    · exact List.suffix_refl _
  · exact List.suffix_refl _

/-- Helper: the last element reported by getLast? belongs to the list. -/
theorem mem_of_getLast?_eq {c : Char} :
    ∀ {l : List Char}, l.getLast? = some c → c ∈ l
  | [], h => by simp at h
  | [d], h => by
    simp only [List.getLast?_singleton, Option.some.injEq] at h
    subst h
    exact List.mem_singleton_self _
  | d :: e :: rest, h => by
    rw [List.getLast?_cons_cons] at h
    exact List.mem_cons_of_mem d (mem_of_getLast?_eq h)

/-- Helper: a head that fails the predicate stops dropWhile at once. -/
theorem dropWhile_eq_self_of_head {p : Char → Bool} {l : List Char}
    (h : ∀ c ∈ l.head?, p c = false) : l.dropWhile p = l := by
  cases l with
  | nil => rfl
  | cons a t =>
    rw [List.dropWhile_cons, if_neg]
    rw [h a rfl]
    simp

/-- Helper: stripping is the identity on lists with non-whitespace
ends. -/
theorem pyStrip_eq_self {l : List Char}
    (h1 : ∀ c ∈ l.head?, isPySpace c = false)
    (h2 : ∀ c ∈ l.getLast?, isPySpace c = false) : pyStrip l = l := by
  unfold pyStrip
  rw [dropWhile_eq_self_of_head h1]
  rw [dropWhile_eq_self_of_head (by simpa [List.head?_reverse] using h2)]
  exact List.reverse_reverse l

/-- Helper: splitting after a leading space skips the space. -/
theorem splitWS_cons_space (r : List Char) : splitWS (' ' :: r) = splitWS r := by
  cases r with
  | nil => rw [splitWS.eq_2, if_pos (by decide : isPySpace ' ' = true)]
  | cons d r2 => rw [splitWS.eq_3, if_pos (by decide : isPySpace ' ' = true)]

/-- Helper: every token of the whitespace split is non-empty and consists
of non-whitespace characters of the input. -/
theorem splitWS_tokens_spec :
    ∀ (l : List Char), ∀ t ∈ splitWS l,
      t ≠ [] ∧ ∀ c ∈ t, isPySpace c = false ∧ c ∈ l := by
  intro l
  induction l with
  | nil =>
    intro t ht
    simp [splitWS] at ht
  | cons c rest ih =>
    intro t ht
    cases rest with
    | nil =>
      rw [splitWS.eq_2] at ht
      cases hc : isPySpace c with
      | true =>
        rw [if_pos (by rw [hc]), splitWS.eq_1] at ht
        simp at ht
      | false =>
        rw [if_neg (by rw [hc]; simp)] at ht
        simp only [List.mem_singleton] at ht
        subst ht
        refine ⟨by simp, ?_⟩
        intro d hd
        simp only [List.mem_singleton] at hd
        subst hd
        exact ⟨hc, List.mem_singleton_self d⟩
    | cons d rest2 =>
      rw [splitWS.eq_3] at ht
      cases hc : isPySpace c with
      | true =>
        rw [if_pos (by rw [hc])] at ht
        obtain ⟨hne, hall⟩ := ih t ht
        exact ⟨hne, fun e he =>
          ⟨(hall e he).1, List.mem_cons_of_mem c (hall e he).2⟩⟩
      | false =>
        rw [if_neg (by rw [hc]; simp)] at ht
        cases hd : isPySpace d with
        | true =>
          rw [if_pos (by rw [hd])] at ht
          rcases List.mem_cons.mp ht with h1 | h1
          · subst h1
            refine ⟨by simp, ?_⟩
            intro e he
            simp only [List.mem_singleton] at he
            subst he
            exact ⟨hc, List.mem_cons_self e _⟩
          · obtain ⟨hne, hall⟩ := ih t h1
            exact ⟨hne, fun e he =>
              ⟨(hall e he).1, List.mem_cons_of_mem c (hall e he).2⟩⟩
        | false =>
          rw [if_neg (by rw [hd]; simp)] at ht
          cases hsp : splitWS (d :: rest2) with
          | nil =>
            rw [hsp] at ht
            simp only [List.mem_singleton] at ht
            subst ht
            refine ⟨by simp, ?_⟩
            intro e he
            simp only [List.mem_singleton] at he
            subst he
            exact ⟨hc, List.mem_cons_self e _⟩
          | cons t0 ts0 =>
            rw [hsp] at ht
            rcases List.mem_cons.mp ht with h1 | h1
            · subst h1
              have hspec := ih t0 (by rw [hsp]; exact List.mem_cons_self t0 ts0)
              refine ⟨by simp, ?_⟩
              intro e he
              rcases List.mem_cons.mp he with he1 | he1
              · subst he1
                exact ⟨hc, List.mem_cons_self e _⟩
              · exact ⟨(hspec.2 e he1).1,
                  List.mem_cons_of_mem c (hspec.2 e he1).2⟩
            · have hspec := ih t (by rw [hsp]; exact List.mem_cons_of_mem t0 h1)
              exact ⟨hspec.1, fun e he =>
                ⟨(hspec.2 e he).1, List.mem_cons_of_mem c (hspec.2 e he).2⟩⟩

/-- Helper: a non-empty all-non-whitespace list splits into itself. -/
theorem splitWS_single :
    ∀ (t : List Char), t ≠ [] → (∀ c ∈ t, isPySpace c = false) →
      splitWS t = [t] := by
  intro t
  induction t with
  | nil => intro h _; exact absurd rfl h
  | cons c rest ih =>
    intro _ hns
    have hc : isPySpace c = false := hns c (List.mem_cons_self c rest)
    cases rest with
    | nil =>
      rw [splitWS.eq_2, if_neg (by rw [hc]; simp)]
    | cons d rest2 =>
      have hd : isPySpace d = false :=
        hns d (List.mem_cons_of_mem c (List.mem_cons_self d rest2))
      rw [splitWS.eq_3, if_neg (by rw [hc]; simp), if_neg (by rw [hd]; simp)]
      rw [ih (by simp) (fun e he => hns e (List.mem_cons_of_mem c he))]

/-- Helper: splitting a token followed by a space boundary peels the
token off. -/
theorem splitWS_append_token :
    ∀ (t r : List Char), t ≠ [] → (∀ c ∈ t, isPySpace c = false) →
      splitWS (t ++ ' ' :: r) = t :: splitWS r := by
  intro t
  induction t with
  | nil => intro r h _; exact absurd rfl h
  | cons c rest ih =>
    intro r _ hns
    have hc : isPySpace c = false := hns c (List.mem_cons_self c rest)
    cases rest with
    | nil =>
      show splitWS (c :: ' ' :: r) = [c] :: splitWS r
      rw [splitWS.eq_3, if_neg (by rw [hc]; simp),
        if_pos (by decide : isPySpace ' ' = true)]
      rw [splitWS_cons_space r]
    | cons d rest2 =>
      have hd : isPySpace d = false :=
        hns d (List.mem_cons_of_mem c (List.mem_cons_self d rest2))
      have ihh := ih r (by simp) (fun e he => hns e (List.mem_cons_of_mem c he))
      rw [List.cons_append] at ihh
      show splitWS (c :: d :: (rest2 ++ ' ' :: r)) = (c :: d :: rest2) :: splitWS r
      rw [splitWS.eq_3, if_neg (by rw [hc]; simp), if_neg (by rw [hd]; simp)]
      rw [ihh]

/-- Helper: splitting the space join of good tokens recovers the
tokens. -/
theorem splitWS_joinTokens :
    ∀ (ts : List (List Char)), (∀ t ∈ ts, t ≠ []) →
      (∀ t ∈ ts, ∀ c ∈ t, isPySpace c = false) →
      splitWS (joinTokens ts) = ts
  | [], _, _ => rfl
  | [t], hne, hns => by
    show splitWS t = [t]
    exact splitWS_single t (hne t (List.mem_singleton_self t))
      (hns t (List.mem_singleton_self t))
  | t :: t2 :: ts, hne, hns => by
    show splitWS (t ++ ' ' :: joinTokens (t2 :: ts)) = t :: t2 :: ts
    rw [splitWS_append_token t _ (hne t (List.mem_cons_self t _))
      (hns t (List.mem_cons_self t _))]
    rw [splitWS_joinTokens (t2 :: ts)
      (fun u hu => hne u (List.mem_cons_of_mem t hu))
      (fun u hu => hns u (List.mem_cons_of_mem t hu))]

/-- Helper: characters of the space join are separator spaces or token
characters. -/
theorem mem_joinTokens {c : Char} :
    ∀ {ts : List (List Char)}, c ∈ joinTokens ts →
      c = ' ' ∨ ∃ t ∈ ts, c ∈ t
  | [], h => absurd h (by simp [joinTokens])
  | [t], h => Or.inr ⟨t, List.mem_singleton_self t, h⟩
  | t :: t2 :: ts, h => by
    rcases List.mem_append.mp h with h1 | h1
    · exact Or.inr ⟨t, List.mem_cons_self t _, h1⟩
    · rcases List.mem_cons.mp h1 with h2 | h2
      · exact Or.inl h2
      · rcases mem_joinTokens h2 with h3 | ⟨u, hu, hcu⟩
        · exact Or.inl h3
        · exact Or.inr ⟨u, List.mem_cons_of_mem t hu, hcu⟩

/-- Helper: the join of non-empty tokens is non-empty. -/
theorem joinTokens_ne_nil :
    ∀ {ts : List (List Char)}, ts ≠ [] → (∀ t ∈ ts, t ≠ []) →
      joinTokens ts ≠ []
  | [], h, _ => absurd rfl h
  | [t], _, hne => by
    show t ≠ []
    exact hne t (List.mem_singleton_self t)
  | t :: t2 :: ts, _, hne => by
    show t ++ ' ' :: joinTokens (t2 :: ts) ≠ []
    simp

/-- Helper: the head of the join of good tokens is not whitespace. -/
theorem joinTokens_head_not_space :
    ∀ {ts : List (List Char)}, (∀ t ∈ ts, t ≠ []) →
      (∀ t ∈ ts, ∀ c ∈ t, isPySpace c = false) →
      ∀ c ∈ (joinTokens ts).head?, isPySpace c = false
  | [], _, _ => by simp [joinTokens]
  | [t], hne, hns => by
    intro c hc
    have hmem : c ∈ t := by
      cases t with
      | nil => exact absurd rfl (hne [] (List.mem_singleton_self []))
      | cons a t0 =>
        simp only [joinTokens, List.head?_cons, Option.mem_def,
          Option.some.injEq] at hc
        rw [← hc]
        exact List.mem_cons_self a t0
    exact hns t (List.mem_singleton_self t) c hmem
  | t :: t2 :: ts, hne, hns => by
    intro c hc
    cases ht : t with
    | nil => exact absurd ht (hne t (List.mem_cons_self t _))
    | cons a t0 =>
      subst ht
      simp only [joinTokens, List.cons_append, List.head?_cons,
        Option.mem_def, Option.some.injEq] at hc
      rw [← hc]
      exact hns _ (List.mem_cons_self _ _) a (List.mem_cons_self a t0)

/-- Helper: the last character of the join of good tokens is not
whitespace. -/
theorem joinTokens_last_not_space :
    ∀ {ts : List (List Char)}, (∀ t ∈ ts, t ≠ []) →
      (∀ t ∈ ts, ∀ c ∈ t, isPySpace c = false) →
      ∀ c ∈ (joinTokens ts).getLast?, isPySpace c = false
  | [], _, _ => by simp [joinTokens]
  | [t], hne, hns => by
    intro c hc
    exact hns t (List.mem_singleton_self t) c (mem_of_getLast?_eq hc)
  | t :: t2 :: ts, hne, hns => by
    intro c hc
    have hjoin : joinTokens (t2 :: ts) ≠ [] :=
      joinTokens_ne_nil (by simp)
        (fun u hu => hne u (List.mem_cons_of_mem t hu))
    have hrec := joinTokens_last_not_space
      (fun u hu => hne u (List.mem_cons_of_mem t hu))
      (fun u hu => hns u (List.mem_cons_of_mem t hu))
    have hc2 : c ∈ (joinTokens (t2 :: ts)).getLast? := by
      have e1 : joinTokens (t :: t2 :: ts) = t ++ ' ' :: joinTokens (t2 :: ts) := rfl
      rw [e1, List.getLast?_append] at hc
      have e2 : (' ' :: joinTokens (t2 :: ts)).getLast?
          = (joinTokens (t2 :: ts)).getLast? := by
        show ([' '] ++ joinTokens (t2 :: ts)).getLast? = _
        rw [List.getLast?_append]
        cases hg : (joinTokens (t2 :: ts)).getLast? with
        | none =>
          exact absurd (List.getLast?_eq_none_iff.mp hg) hjoin
        | some d => rfl
      rw [e2] at hc
      cases hg : (joinTokens (t2 :: ts)).getLast? with
      | none => exact absurd (List.getLast?_eq_none_iff.mp hg) hjoin
      | some d =>
        rw [hg] at hc
        exact hc
    exact hrec c hc2

/-- Helper: collapsing is the identity when every whitespace character is
a plain space and no two adjacent characters are both whitespace. -/
theorem collapseWS_eq_self :
    ∀ {l : List Char}, (∀ c ∈ l, isPySpace c = true → c = ' ') →
      List.Chain' (fun a b => ¬(isPySpace a = true ∧ isPySpace b = true)) l →
      collapseWS l = l
  | [], _, _ => rfl
  | [c], h1, _ => by
    unfold collapseWS
    by_cases hs : isPySpace c = true
    · rw [if_pos hs, h1 c (List.mem_singleton_self c) hs]
    · rw [if_neg hs]
  | c :: d :: rest, h1, h2 => by
    obtain ⟨hcd, h2tail⟩ := List.chain'_cons.mp h2
    unfold collapseWS
    have hnotboth : (isPySpace c && isPySpace d) = false := by
      cases hc : isPySpace c with
      | false => rfl
      | true =>
        cases hd : isPySpace d with
        | false => rfl
        | true => exact absurd ⟨hc, hd⟩ hcd
    rw [if_neg (by rw [hnotboth]; simp)]
    have htail : collapseWS (d :: rest) = d :: rest :=
      collapseWS_eq_self (fun e he hs => h1 e (List.mem_cons_of_mem c he) hs)
        h2tail
    rw [htail]
    by_cases hc : isPySpace c = true
    · rw [if_pos hc, h1 c (List.mem_cons_self c _) hc]
    · rw [if_neg hc]

/-- Helper: lists of non-whitespace characters have no adjacent
whitespace pair. -/
theorem chain'_of_all_not_space :
    ∀ {l : List Char}, (∀ c ∈ l, isPySpace c = false) →
      List.Chain' (fun a b => ¬(isPySpace a = true ∧ isPySpace b = true)) l
  | [], _ => List.chain'_nil
  | [c], _ => List.chain'_singleton c
  | c :: d :: rest, h => by
    rw [List.chain'_cons]
    refine ⟨?_, chain'_of_all_not_space
      (fun e he => h e (List.mem_cons_of_mem c he))⟩
    intro ⟨hc, _⟩
    rw [h c (List.mem_cons_self c _)] at hc
    exact absurd hc (by simp)

/-- Helper: the join of good tokens has no adjacent whitespace pair. -/
theorem joinTokens_chain' :
    ∀ {ts : List (List Char)}, (∀ t ∈ ts, t ≠ []) →
      (∀ t ∈ ts, ∀ c ∈ t, isPySpace c = false) →
      List.Chain' (fun a b => ¬(isPySpace a = true ∧ isPySpace b = true))
        (joinTokens ts)
  | [], _, _ => List.chain'_nil
  | [t], hne, hns => by
    exact chain'_of_all_not_space (hns t (List.mem_singleton_self t))
  | t :: t2 :: ts, hne, hns => by
    show List.Chain' _ (t ++ ' ' :: joinTokens (t2 :: ts))
    rw [List.chain'_append]
    refine ⟨chain'_of_all_not_space (hns t (List.mem_cons_self t _)), ?_, ?_⟩
    · rw [List.chain'_cons']
      refine ⟨?_, joinTokens_chain'
        (fun u hu => hne u (List.mem_cons_of_mem t hu))
        (fun u hu => hns u (List.mem_cons_of_mem t hu))⟩
      intro y hy
      have hyns : isPySpace y = false :=
        joinTokens_head_not_space
          (fun u hu => hne u (List.mem_cons_of_mem t hu))
          (fun u hu => hns u (List.mem_cons_of_mem t hu)) y hy
      intro ⟨_, hys⟩
      rw [hyns] at hys
      exact absurd hys (by simp)
    · intro x hx y hy
      have hxns : isPySpace x = false :=
        hns t (List.mem_cons_self t _) x (mem_of_getLast?_eq hx)
      intro ⟨hxs, _⟩
      rw [hxns] at hxs
      exact absurd hxs (by simp)

/-- Helper: mapping a function that fixes every element is the
identity. -/
theorem map_eq_self_of_fix {f : Char → Char} {l : List Char}
    (h : ∀ c ∈ l, f c = c) : l.map f = l :=
  (List.map_congr_left h).trans (List.map_id l)

/-- Helper: the tokens produced by the normalizer satisfy the token
invariant. -/
theorem tokens_good (l : List Char) : GoodTokens (normalizeTokens l) := by
  intro t ht
  have ht2 : t ∈ splitWS (stripLeadingArticle (collapseWS
      ((pyStrip (l.map Char.toLower)).filter keepChar))) :=
    List.mem_of_mem_filter ht
  obtain ⟨hne, hall⟩ := splitWS_tokens_spec _ t ht2
  refine ⟨hne, ?_⟩
  intro c hc
  have hns : isPySpace c = false := (hall c hc).1
  have hmem4 : c ∈ stripLeadingArticle (collapseWS
      ((pyStrip (l.map Char.toLower)).filter keepChar)) := (hall c hc).2
  have hmem3 : c ∈ collapseWS ((pyStrip (l.map Char.toLower)).filter keepChar) :=
    (stripLeadingArticle_suffix _).subset hmem4
  have hmem2 : c ∈ (pyStrip (l.map Char.toLower)).filter keepChar := by
    rcases mem_collapseWS hmem3 with h1 | ⟨h1, _⟩
    · rw [h1] at hns
      exact absurd hns (by decide)
    · exact h1
  have hkeep : keepChar c = true := List.of_mem_filter hmem2
  have hmem0 : c ∈ l.map Char.toLower :=
    mem_pyStrip (List.mem_of_mem_filter hmem2)
  obtain ⟨d, _, hd⟩ := List.mem_map.mp hmem0
  have hlow : Char.toLower c = c := by
    rw [← hd]
    exact toLower_idem d
  exact ⟨hns, hkeep, hlow⟩

/-- Helper: normalizing the space join of good surviving tokens returns
it unchanged, provided the join does not start with a leading article. -/
theorem normalize_of_goodTokens (ts : List (List Char))
    (hgood : GoodTokens ts)
    (hq : ∀ t ∈ ts, (!platformStopwords.contains t) = true)
    (hart : stripLeadingArticle (joinTokens ts) = joinTokens ts) :
    normalize_product_name (joinTokens ts) = joinTokens ts := by
  have hne : ∀ t ∈ ts, t ≠ [] := fun t ht => (hgood t ht).1
  have hns : ∀ t ∈ ts, ∀ c ∈ t, isPySpace c = false :=
    fun t ht c hc => ((hgood t ht).2 c hc).1
  have hkeep : ∀ t ∈ ts, ∀ c ∈ t, keepChar c = true :=
    fun t ht c hc => ((hgood t ht).2 c hc).2.1
  have hlow : ∀ t ∈ ts, ∀ c ∈ t, Char.toLower c = c :=
    fun t ht c hc => ((hgood t ht).2 c hc).2.2
  have hmap : (joinTokens ts).map Char.toLower = joinTokens ts := by
    apply map_eq_self_of_fix
    intro c hc
    rcases mem_joinTokens hc with h1 | ⟨t, ht, hct⟩
    · rw [h1]
      decide
    · exact hlow t ht c hct
  have hstripJ : pyStrip (joinTokens ts) = joinTokens ts :=
    pyStrip_eq_self (joinTokens_head_not_space hne hns)
      (joinTokens_last_not_space hne hns)
  have hfil : (joinTokens ts).filter keepChar = joinTokens ts := by
    rw [List.filter_eq_self]
    intro c hc
    rcases mem_joinTokens hc with h1 | ⟨t, ht, hct⟩
    · rw [h1]
      decide
    · exact hkeep t ht c hct
  have hspace : ∀ c ∈ joinTokens ts, isPySpace c = true → c = ' ' := by
    intro c hc hs
    rcases mem_joinTokens hc with h1 | ⟨t, ht, hct⟩
    · exact h1
    · rw [hns t ht c hct] at hs
      exact absurd hs (by simp)
  have hcol : collapseWS (joinTokens ts) = joinTokens ts :=
    collapseWS_eq_self hspace (joinTokens_chain' hne hns)
  have hsplit : splitWS (joinTokens ts) = ts := splitWS_joinTokens ts hne hns
  have hfq : ts.filter (fun t => !platformStopwords.contains t) = ts :=
    List.filter_eq_self.mpr hq
  show pyStrip (joinTokens ((splitWS (stripLeadingArticle (collapseWS
      ((pyStrip ((joinTokens ts).map Char.toLower)).filter keepChar)))).filter
      (fun t => !platformStopwords.contains t))) = joinTokens ts
  rw [hmap, hstripJ, hfil, hcol, hart, hsplit, hfq, hstripJ]

/-- Counterexample for C1 as stated: the normalizer is not idempotent on
the string consisting of the words a, the, lamp: one pass yields the
string of the words the, lamp and a second pass strips the newly exposed
leading article. -/
theorem normalize_not_idempotent :
    normalize_product_name (normalize_product_name (("a the lamp".toList)))
      ≠ normalize_product_name (("a the lamp".toList)) := by decide

/-- C1 (amended): the normalizer is idempotent on every string whose
normalized form does not begin with a leading article token followed by
whitespace; the second pass changes only such forms, by stripping that
article. -/
theorem normalize_idempotent_unless_leading_article (l : List Char)
    (h : stripLeadingArticle (normalize_product_name l)
      = normalize_product_name l) :
    normalize_product_name (normalize_product_name l)
      = normalize_product_name l := by
  have hgood := tokens_good l
  have hne : ∀ t ∈ normalizeTokens l, t ≠ [] := fun t ht => (hgood t ht).1
  have hns : ∀ t ∈ normalizeTokens l, ∀ c ∈ t, isPySpace c = false :=
    fun t ht c hc => ((hgood t ht).2 c hc).1
  have e1 : normalize_product_name l = joinTokens (normalizeTokens l) := by
    show pyStrip (joinTokens (normalizeTokens l)) = joinTokens (normalizeTokens l)
    exact pyStrip_eq_self (joinTokens_head_not_space hne hns)
      (joinTokens_last_not_space hne hns)
  have hq : ∀ t ∈ normalizeTokens l, (!platformStopwords.contains t) = true := by
    intro t ht
    unfold normalizeTokens at ht
    have h3 := List.of_mem_filter ht
    exact h3
  rw [e1] at h ⊢
  exact normalize_of_goodTokens (normalizeTokens l) hgood hq h

/-- Witness for the amended C1: a concrete product name already in
normalized article-free form is a fixed point of the normalizer. -/
theorem normalize_idempotent_unless_leading_article_witness :
    stripLeadingArticle (normalize_product_name (("Wireless Earbuds Pro!!".toList)))
      = normalize_product_name (("Wireless Earbuds Pro!!".toList))
    ∧ normalize_product_name
        (normalize_product_name (("Wireless Earbuds Pro!!".toList)))
      = normalize_product_name (("Wireless Earbuds Pro!!".toList)) :=
  ⟨by decide,
    normalize_idempotent_unless_leading_article ("Wireless Earbuds Pro!!".toList)
      (by decide)⟩

/-! ## Lemmas for the identity resolver (claim C3) -/

/-- Helper: the nested product-then-aliases loop of the fuzzy scan is the
linear scan over the flattened candidate list. -/
theorem fuzzy_scan_eq_foldl (ratio : List Char → List Char → ℕ)
    (n : List Char) (st : Store) :
    fuzzy_scan ratio n st
      = (scan_candidates st).foldl (scan_step ratio n) (none, 0) := by
  unfold fuzzy_scan scan_candidates
  suffices h : ∀ (ps : List ProductE) (init : Option ProductE × ℕ),
      ps.foldl (fun best p => scan_aliases ratio n p (get_aliases st p.id)
          (if best.2 < ratio n p.canonical_name
            then (some p, ratio n p.canonical_name) else best)) init
        = (ps.flatMap (fun p => (p, p.canonical_name)
            :: (get_aliases st p.id).map (fun a => (p, a.alias_name)))).foldl
            (scan_step ratio n) init by
    exact h st.products (none, 0)
  intro ps
  induction ps with
  | nil => intro init; rfl
  | cons p ps ih =>
    intro init
    rw [List.foldl_cons, ih, List.flatMap_cons, List.foldl_append,
      List.foldl_cons, List.foldl_map]
    rfl

/-- Helper: the fuzzy scan never moves off a best whose score no
candidate beats. -/
theorem foldl_scan_keep (ratio : List Char → List Char → ℕ) (n : List Char) :
    ∀ (cs : List (ProductE × List Char)) (b : Option ProductE × ℕ),
      (∀ c ∈ cs, ratio n c.2 ≤ b.2) →
      cs.foldl (scan_step ratio n) b = b := by
  intro cs
  induction cs with
  | nil => intro b _; rfl
  | cons c cs ih =>
    intro b hall
    rw [List.foldl_cons]
    have e : scan_step ratio n b c = b := by
      unfold scan_step
      rw [if_neg (not_lt.mpr (hall c (List.mem_cons_self c cs)))]
    rw [e]
    exact ih b (fun d hd => hall d (List.mem_cons_of_mem c hd))

/-- Helper: when candidate j is the first to attain the maximal score M,
the fuzzy fold starting below M ends on exactly that candidate. -/
theorem foldl_scan_first_max (ratio : List Char → List Char → ℕ)
    (n : List Char) :
    ∀ (cs : List (ProductE × List Char)) (j : ℕ) (cj : ProductE × List Char)
      (bm : Option ProductE) (bs M : ℕ),
      cs[j]? = some cj →
      (∀ c ∈ cs, ratio n c.2 ≤ M) →
      ratio n cj.2 = M →
      (∀ c ∈ cs.take j, ratio n c.2 < M) →
      bs < M →
      cs.foldl (scan_step ratio n) (bm, bs) = (some cj.1, M) := by
  intro cs
  induction cs with
  | nil =>
    intro j cj bm bs M hget
    rw [List.getElem?_nil] at hget
    exact absurd hget (by simp)
  | cons c cs ih =>
    intro j cj bm bs M hget hmax hcj hfirst hbs
    cases j with
    | zero =>
      rw [List.getElem?_cons_zero] at hget
      obtain rfl : c = cj := by simpa using hget
      rw [List.foldl_cons]
      have e : scan_step ratio n (bm, bs) c = (some c.1, M) := by
        show (if bs < ratio n c.2 then (some c.1, ratio n c.2) else (bm, bs))
          = (some c.1, M)
        rw [hcj, if_pos hbs]
      rw [e]
      exact foldl_scan_keep ratio n cs (some c.1, M)
        (fun d hd => hmax d (List.mem_cons_of_mem c hd))
    | succ j2 =>
      rw [List.getElem?_cons_succ] at hget
      have hcfirst : ratio n c.2 < M := by
        refine hfirst c ?_
        rw [List.take_succ_cons]
        exact List.mem_cons_self c _
      have hfirst2 : ∀ d ∈ cs.take j2, ratio n d.2 < M := by
        intro d hd
        refine hfirst d ?_
        rw [List.take_succ_cons]
        exact List.mem_cons_of_mem c hd
      rw [List.foldl_cons]
      by_cases hb : bs < ratio n c.2
      · have e : scan_step ratio n (bm, bs) c = (some c.1, ratio n c.2) := by
          show (if bs < ratio n c.2 then (some c.1, ratio n c.2) else (bm, bs)) = _
          rw [if_pos hb]
        rw [e]
        exact ih j2 cj (some c.1) (ratio n c.2) M hget
          (fun d hd => hmax d (List.mem_cons_of_mem c hd)) hcj hfirst2 hcfirst
      · have e : scan_step ratio n (bm, bs) c = (bm, bs) := by
          show (if bs < ratio n c.2 then (some c.1, ratio n c.2) else (bm, bs)) = _
          rw [if_neg hb]
        rw [e]
        exact ih j2 cj bm bs M hget
          (fun d hd => hmax d (List.mem_cons_of_mem c hd)) hcj hfirst2 hbs

/-- C3: when the exact canonical and alias lookups miss and candidate j
is the first (in products-then-aliases scan order) to attain the maximal
similarity score M, with M at or above the threshold 80, the resolver
returns the product owning candidate j and registers the normalized name
as a new source-tagged alias of exactly that product. -/
theorem fuzzy_match_keeps_first_max (ratio : List Char → List Char → ℕ)
    (st : Store) (raw_name source : List Char) (category : Option (List Char))
    (j : ℕ) (cj : ProductE × List Char) (M : ℕ)
    (hnoexact : st.products.find?
      (fun p => p.canonical_name == normalize_product_name raw_name) = none)
    (hnoalias : st.aliases.find?
      (fun a => a.alias_name == normalize_product_name raw_name) = none)
    (hget : (scan_candidates st)[j]? = some cj)
    (hmax : ∀ c ∈ scan_candidates st,
      ratio (normalize_product_name raw_name) c.2 ≤ M)
    (hcj : ratio (normalize_product_name raw_name) cj.2 = M)
    (hfirst : ∀ c ∈ (scan_candidates st).take j,
      ratio (normalize_product_name raw_name) c.2 < M)
    (hthr : MATCH_THRESHOLD ≤ M) :
    find_or_create_product ratio st raw_name source category
      = some (cj.1, { st with aliases := st.aliases
          ++ [⟨cj.1.id, normalize_product_name raw_name, source⟩] }) := by
  have hMpos : 0 < M := lt_of_lt_of_le (by decide) hthr
  have hscan : fuzzy_scan ratio (normalize_product_name raw_name) st
      = (some cj.1, M) := by
    rw [fuzzy_scan_eq_foldl]
    exact foldl_scan_first_max ratio _ (scan_candidates st) j cj none 0 M
      hget hmax hcj hfirst hMpos
  simp only [find_or_create_product, hnoexact, hnoalias, hscan]
  rw [if_pos hthr]

/-- Witness for C3: with a constant similarity of 85 the two stored
products tie; the scan keeps the first product and registers the new
source-tagged alias on it. -/
theorem fuzzy_match_keeps_first_max_witness :
    (Store.mk [⟨1, ("wireless charger".toList), none⟩,
        ⟨2, ("yoga mat".toList), none⟩] [] 3).products.find?
      (fun p => p.canonical_name == normalize_product_name ("glow strip".toList)) = none
    ∧ (Store.mk [⟨1, ("wireless charger".toList), none⟩,
        ⟨2, ("yoga mat".toList), none⟩] [] 3).aliases.find?
      (fun a => a.alias_name == normalize_product_name ("glow strip".toList)) = none
    ∧ (scan_candidates (Store.mk [⟨1, ("wireless charger".toList), none⟩,
        ⟨2, ("yoga mat".toList), none⟩] [] 3))[0]?
      = some (⟨1, ("wireless charger".toList), none⟩, ("wireless charger".toList))
    ∧ (∀ c ∈ scan_candidates (Store.mk [⟨1, ("wireless charger".toList), none⟩,
        ⟨2, ("yoga mat".toList), none⟩] [] 3),
        (fun (_ _ : List Char) => 85) (normalize_product_name ("glow strip".toList)) c.2 ≤ 85)
    ∧ MATCH_THRESHOLD ≤ 85
    ∧ find_or_create_product (fun _ _ => 85)
        (Store.mk [⟨1, ("wireless charger".toList), none⟩,
          ⟨2, ("yoga mat".toList), none⟩] [] 3)
        ("glow strip".toList) ("etsy".toList) none
      = some (⟨1, ("wireless charger".toList), none⟩,
          Store.mk [⟨1, ("wireless charger".toList), none⟩,
            ⟨2, ("yoga mat".toList), none⟩]
            [⟨1, normalize_product_name ("glow strip".toList), ("etsy".toList)⟩] 3) :=
  ⟨by decide, by decide, by decide, by decide, by decide,
    fuzzy_match_keeps_first_max (fun _ _ => 85)
      (Store.mk [⟨1, ("wireless charger".toList), none⟩,
        ⟨2, ("yoga mat".toList), none⟩] [] 3)
      ("glow strip".toList) ("etsy".toList) none 0
      (⟨1, ("wireless charger".toList), none⟩, ("wireless charger".toList)) 85
      (by decide) (by decide) (by decide) (by decide) (by decide) (by decide)
      (by decide)⟩

end DSPA
